import Mathlib

set_option maxRecDepth 8000

/-!
Verification of the quantized matmul kernel in `src/matmul_kernel.cpp`.

The kernel computes `xout[i] = Σ_groups fma(float(ival), xs*ws, sum)` over a
row-major int8 weight matrix with grouped quantization scales, using IEEE-754
binary32 arithmetic with round-to-nearest-even.  Float bit patterns are
modelled as `Nat` (< 2^32); int8/int32 values as `Int` with explicit
wrapping where the C code wraps.
-/

namespace MatmulKernel

/-! ## IEEE-754 binary32 model

The kernel's scalar primitives are, in the guest build, the RISC-V
instructions `fmul.s`, `fmadd.s`, `fcvt.s.w` with static rounding mode `rne`
(src/matmul_kernel.cpp lines 9-25), and in the host build the soft-float
routines `cartesi::i_sfloat32::{mul,fma,cvt_i_f}` under `FRM_RNE`
(lines 39-52).  Neither realization's body is part of src/ (the former is
processor behaviour behind inline asm, the latter lives in the external
header `soft-float.h`), so both are modelled here by the semantics both
implement: IEEE-754 binary32 round-to-nearest-even with RISC-V NaN handling
(every NaN result is the canonical quiet NaN 0x7FC00000). -/

/-- Sign bit (0 or 1) of a binary32 bit pattern. -/
def f32Sign (b : Nat) : Nat := b / 2 ^ 31 % 2

/-- Biased exponent field of a binary32 bit pattern. -/
def f32Exp (b : Nat) : Nat := b / 2 ^ 23 % 2 ^ 8

/-- Fraction field of a binary32 bit pattern. -/
def f32Frac (b : Nat) : Nat := b % 2 ^ 23

/-- The bit pattern is a NaN. -/
def f32IsNaN (b : Nat) : Bool := f32Exp b == 255 && f32Frac b != 0

/-- The bit pattern is an infinity. -/
def f32IsInf (b : Nat) : Bool := f32Exp b == 255 && f32Frac b == 0

/-- The bit pattern is a (signed) zero. -/
def f32IsZero (b : Nat) : Bool := f32Exp b == 0 && f32Frac b == 0

/-- RISC-V canonical quiet NaN, the result of any NaN-producing operation. -/
def canonNaN : Nat := 0x7FC00000

/-- Integer significand of a finite binary32 value: the value is
`(-1)^sign * f32SigM b * 2 ^ f32SigE b`. -/
def f32SigM (b : Nat) : Nat :=
  if f32Exp b == 0 then f32Frac b else 2 ^ 23 + f32Frac b

/-- Exponent of the integer significand of a finite binary32 value. -/
def f32SigE (b : Nat) : Int :=
  if f32Exp b == 0 then -149 else (f32Exp b : Int) - 150

/-- Number of binary digits of `n` (0 for 0), with structural fuel so that it
reduces inside the kernel; the fuel 1024 exceeds every bit width arising from
binary32 multiply/FMA alignment. -/
def bitlenAux : Nat → Nat → Nat
  | 0, _ => 0
  | f + 1, n => if n = 0 then 0 else bitlenAux f (n / 2) + 1

/-- Number of binary digits of `n`. -/
def bitlen (n : Nat) : Nat := bitlenAux 1024 n

/-- Round-to-nearest-even of `M / 2^sh` as an integer. -/
def rneShift (M sh : Nat) : Nat :=
  if sh = 0 then M
  else
    let q := M / 2 ^ sh
    let r := M % 2 ^ sh
    let half := 2 ^ (sh - 1)
    if half < r then q + 1 else if r < half then q else q + q % 2

/-- Encode sign `s`, rounded significand `M ≤ 2^24` and quantum exponent
`Q ≥ -149` as a binary32 bit pattern (overflowing to infinity). -/
def f32Pack (s M : Nat) (Q : Int) : Nat :=
  if M = 0 then s * 2 ^ 31
  else
    let M2 := if M = 2 ^ 24 then 2 ^ 23 else M
    let Q2 := if M = 2 ^ 24 then Q + 1 else Q
    if M2 < 2 ^ 23 then s * 2 ^ 31 + M2
    else if Q2 + 150 ≤ 254 then
      s * 2 ^ 31 + (Q2 + 150).toNat * 2 ^ 23 + (M2 - 2 ^ 23)
    else s * 2 ^ 31 + 255 * 2 ^ 23

/-- Round the exact nonzero value `(-1)^s * M * 2^E` (or signed zero when
`M = 0`) to the nearest binary32 value, ties to even, denormals rounded at
quantum 2^-149, overflow to infinity. -/
def f32Round (s M : Nat) (E : Int) : Nat :=
  if M = 0 then s * 2 ^ 31
  else
    let Q : Int := max ((bitlen M : Int) - 1 + E - 23) (-149)
    if Q ≤ E then f32Pack s (M * 2 ^ (E - Q).toNat) Q
    else f32Pack s (rneShift M (Q - E).toNat) Q

/-- Binary32 multiplication, round-to-nearest-even, RISC-V NaN handling:
model of `fmul.s rd, rs1, rs2, rne` and (per spec §4.1) of
`cartesi::i_sfloat32::mul(a, b, FRM_RNE, &fflags)`. -/
def f32_mul (a b : Nat) : Nat :=
  if f32IsNaN a || f32IsNaN b then canonNaN
  else if f32IsInf a || f32IsInf b then
    if f32IsZero a || f32IsZero b then canonNaN
    else (f32Sign a + f32Sign b) % 2 * 2 ^ 31 + 255 * 2 ^ 23
  else
    f32Round ((f32Sign a + f32Sign b) % 2) (f32SigM a * f32SigM b)
      (f32SigE a + f32SigE b)

/-- Binary32 fused multiply-add `a*b + c` with a single rounding,
round-to-nearest-even, RISC-V NaN handling: model of
`fmadd.s rd, rs1, rs2, rs3, rne` and (per spec §4.1) of
`cartesi::i_sfloat32::fma(a, b, c, FRM_RNE, &fflags)`. -/
def f32_fma (a b c : Nat) : Nat :=
  if f32IsNaN a || f32IsNaN b || f32IsNaN c then canonNaN
  else if (f32IsInf a && f32IsZero b) || (f32IsZero a && f32IsInf b) then canonNaN
  else
    let sp := (f32Sign a + f32Sign b) % 2
    if f32IsInf a || f32IsInf b then
      if f32IsInf c && (f32Sign c != sp) then canonNaN
      else sp * 2 ^ 31 + 255 * 2 ^ 23
    else if f32IsInf c then c
    else
      let Ep : Int := f32SigE a + f32SigE b
      let Ec : Int := f32SigE c
      let Emin : Int := min Ep Ec
      let P : Int := (if sp = 1 then -1 else 1) * (f32SigM a * f32SigM b : Nat)
        * 2 ^ (Ep - Emin).toNat
      let C : Int := (if f32Sign c = 1 then -1 else 1) * (f32SigM c : Nat)
        * 2 ^ (Ec - Emin).toNat
      let S := P + C
      if S = 0 then (if sp = f32Sign c then sp * 2 ^ 31 else 0)
      else f32Round (if S < 0 then 1 else 0) S.natAbs Emin

/-- Binary32 conversion from a signed 32-bit integer, round-to-nearest-even:
model of `fcvt.s.w rd, rs1, rne` and (per spec §4.1) of
`cartesi::i_sfloat32::cvt_i_f<int32_t>(a, FRM_RNE, &fflags)`. -/
def i32_to_f32 (x : Int) : Nat :=
  f32Round (if x < 0 then 1 else 0) x.natAbs 0

/-! ## Kernel model

Shallow embedding of `kernel_entry` (src/matmul_kernel.cpp lines 57-76).
Buffers are modelled as total functions from indices: `xq, wq : Nat → Int`
(int8 element values) and `xs, ws, xout : Nat → Nat` (binary32 bit
patterns); the dimension arguments `n, d, gs` are `uint64_t`, so subtraction
on them wraps modulo 2^64 (`sub64`).  The scalar primitives are a parameter
(`FPrims`) so that the guest and host builds are the same loop applied to
their respective realizations. -/

/-- The three scalar float primitives a build realizes (guest: RISC-V
instructions; host: cartesi soft-float). -/
structure FPrims where
  fmul : Nat → Nat → Nat
  ffma : Nat → Nat → Nat → Nat
  cvt : Int → Nat

/-- Guest realization of the primitives (src lines 9-25): `fmul.s`,
`fmadd.s`, `fcvt.s.w`, each with static rounding mode `rne`, modelled by the
IEEE-754 binary32 semantics above. -/
def guestPrims : FPrims := ⟨f32_mul, f32_fma, i32_to_f32⟩

/-- Modelled from the spec: host realization of the primitives (src lines
39-52) calls `cartesi::i_sfloat32::{mul,fma,cvt_i_f}` with `FRM_RNE`, whose
bodies live in the external header `soft-float.h`, absent from src/.  Spec
§4.1 defines it as "a full bit-accurate emulation of IEEE-754
single-precision multiply/FMA/convert, producing identical bits to the
hardware realization for every input, including subnormals, infinities, and
NaNs, and reporting (but the kernel discards) floating-point exception
flags", so it is modelled by that same IEEE-754 binary32 semantics. -/
def hostPrims : FPrims := ⟨f32_mul, f32_fma, i32_to_f32⟩

/-- Two's-complement wrap of an integer into signed 32-bit range, the
behaviour of `int32_t` arithmetic under `-fno-strict-overflow` (the build
flags in the repository's Makefile). -/
def wrap32 (x : Int) : Int := (x + 2 ^ 31) % 2 ^ 32 - 2 ^ 31

/-- Wrapping subtraction of `uint64_t` values: model of `n - gs` at src
line 66. -/
def sub64 (a b : Nat) : Nat := (a + 2 ^ 64 - b % 2 ^ 64) % 2 ^ 64

/-- Number of iterations of the group loop `for (j = 0; j <= n - gs; j += gs)`
(src line 66): the multiples of `gs` that are `≤ sub64 n gs`, i.e.
`sub64 n gs / gs + 1` (the loop body always runs at `j = 0` because the
comparison is unsigned).  The model follows the executed iterations as long
as `j` itself stays below 2^64, which covers every claim. -/
def numGroups (n gs : Nat) : Nat := sub64 n gs / gs + 1

/-- Integer dot product of one group (src lines 67-70):
`for (k = j; k < gs+j; k++) ival += (int32_t)xq[k] * (int32_t)wq[in+k]`
with `int32_t` wrapping accumulation. -/
def groupIval (xq wq : Nat → Int) (inn j gs : Nat) : Int :=
  (List.range gs).foldl
    (fun ival k => wrap32 (ival + wrap32 (xq (j + k) * wq (inn + (j + k))))) 0

/-- Row sum of `kernel_entry` for the row with base offset `inn = i*n`
(src lines 65-72): fold the groups, in increasing offset order `j = t*gs`,
with `sum = fma(i32_to_f32(ival), f32_mul(xs[j/gs], ws[(in+j)/gs]), sum)`
starting from `sum = 0` (the bit pattern of +0.0). -/
def rowSum (P : FPrims) (xq : Nat → Int) (xs : Nat → Nat) (wq : Nat → Int)
    (ws : Nat → Nat) (n gs inn : Nat) : Nat :=
  (List.range (numGroups n gs)).foldl
    (fun sum t =>
      let j := t * gs
      P.ffma (P.cvt (groupIval xq wq inn j gs))
        (P.fmul (xs (j / gs)) (ws ((inn + j) / gs))) sum)
    0

/-- The caller-owned buffers as one state: `xq, xs, wq, ws` plus the output
buffer `xout`; `kernel_entry` receives all five by pointer. -/
structure KState where
  xq : Nat → Int
  xs : Nat → Nat
  wq : Nat → Int
  ws : Nat → Nat
  xout : Nat → Nat

/-- Row value written to `xout[i]` (src line 73). -/
def rowVal (P : FPrims) (σ : KState) (n gs i : Nat) : Nat :=
  rowSum P σ.xq σ.xs σ.wq σ.ws n gs (i * n)

/-- Execute one iteration of the row loop: write `xout[i]` (src lines
63-74). -/
def execRow (P : FPrims) (σ : KState) (n gs i : Nat) : KState :=
  { σ with xout := fun i2 => if i2 = i then rowVal P σ n gs i else σ.xout i2 }

/-- Execute the row loop over a given schedule of row indices; the
`#pragma omp parallel for` at src line 62 may realize any order of the rows
in `[0, d)`, so the schedule is a parameter. -/
def execRows (P : FPrims) (σ : KState) (n gs : Nat) : List Nat → KState
  | [] => σ
  | i :: rest => execRows P (execRow P σ n gs i) n gs rest

/-- State after `kernel_entry(xout, xq, xs, wq, ws, n, d, gs)` (src lines
57-76), with the canonical (sequential) row schedule `0, 1, ..., d-1`. -/
def kernel_entry (P : FPrims) (σ : KState) (n d gs : Nat) : KState :=
  execRows P σ n gs (List.range d)

/-- Fixed physical address of the guest completion signal,
`HTIF_START` (src line 28). -/
def HTIF_START : Nat := 0x40008000

/-- Guest realization of the completion signal (src lines 27-30): a single
store of the sentinel value 1 to `HTIF_START`; the host realization (src
line 54) is a no-op followed by normal return. -/
def guestHaltStore : Nat × Nat := (HTIF_START, 1)

/-- Observable events of one invocation: a store to `xout[i]`, or the
completion signal (`halt()` at src line 75). -/
inductive Event where
  | writeXout : Nat → Nat → Event
  | haltSignal : Event

/-- Event trace of one invocation under a given row schedule: one `xout`
write per scheduled row, then the single completion signal after the
parallel loop joins. -/
def kernelTrace (P : FPrims) (σ : KState) (n gs : Nat) (order : List Nat) :
    List Event :=
  order.map (fun i => Event.writeXout i (rowVal P σ n gs i)) ++
    [Event.haltSignal]

/-- The event is a write to `xout[i]`. -/
def isWriteToXout (i : Nat) : Event → Bool
  | Event.writeXout i2 _ => i2 == i
  | Event.haltSignal => false

/-- The event is the completion signal. -/
def isHaltEvent : Event → Bool
  | Event.writeXout _ _ => false
  | Event.haltSignal => true

/-- Indices of `xq` read by one row of the kernel: group `t` reads
`xq[t*gs + k]` for `k < gs`. -/
def xqReadIdx (n gs : Nat) : List Nat :=
  (List.range (numGroups n gs)).flatMap
    (fun t => (List.range gs).map (fun k => t * gs + k))

/-! ## Spec-side definitions (for refinement comparison)

These follow the wording of spec §4.2 rather than the source: the group's
integer dot product written as an exact mathematical sum (no wrapping), and
the row result written as a left fold over the group offsets
`0, gs, ..., n-gs` in increasing order. -/

/-- Exact integer dot product of one group, per spec §4.2 step 3:
`ival = Σ_{k=j}^{j+gs-1} xq[k] * wq[in+k]`, exact (no wraparound). -/
def exactIval (xq wq : Nat → Int) (inn j gs : Nat) : Int :=
  ((List.range gs).map (fun k => xq (j + k) * wq (inn + (j + k)))).sum

/-- Row result per spec §4.2 steps 2-5: a left fold, over the group offsets
`j = 0, gs, 2*gs, ..., n-gs` in increasing order, of
`sum = fma(float(ival), xs[j/gs]*ws[(in+j)/gs], sum)` starting from +0.0,
with the exact group dot product. -/
def specRow (P : FPrims) (xq : Nat → Int) (xs : Nat → Nat) (wq : Nat → Int)
    (ws : Nat → Nat) (n gs inn : Nat) : Nat :=
  ((List.range (n / gs)).map (fun t => t * gs)).foldl
    (fun sum j =>
      P.ffma (P.cvt (exactIval xq wq inn j gs))
        (P.fmul (xs (j / gs)) (ws ((inn + j) / gs))) sum)
    0

/-! ## Concrete states used by closed instances -/

/-- Bit pattern of 1.0f. -/
def oneF32 : Nat := 0x3F800000

/-- The concrete scenario of spec §8: `n=4, d=1, gs=2`, `xq=[1,2,3,4]`,
`wq=[1,1,1,1]`, `xs=[1.0,1.0]`, `ws=[1.0,1.0]`, `xout` initially 0. -/
def c3State : KState :=
  ⟨fun k => ([1, 2, 3, 4] : List Int).getD k 0,
   fun _ => oneF32,
   fun _ => 1,
   fun _ => oneF32,
   fun _ => 0⟩

/-- All-zero `xq` with a NaN input scale: `n=1, d=1, gs=1`, `xq=[0]`,
`wq=[0]`, `xs=[NaN]`, `ws=[1.0]`. -/
def nanScaleState : KState :=
  ⟨fun _ => 0, fun _ => canonNaN, fun _ => 0, fun _ => oneF32, fun _ => 0⟩

/-- Simple concrete state with `xq = wq = 1` everywhere and all scales
1.0f, used to instantiate universally quantified theorems. -/
def exState : KState :=
  ⟨fun _ => 1, fun _ => oneF32, fun _ => 1, fun _ => oneF32, fun _ => 0⟩

/-! ## Helper lemmas -/

theorem execRows_xq (P : FPrims) (n gs : Nat) (order : List Nat) (σ : KState) :
    (execRows P σ n gs order).xq = σ.xq := by
  induction order generalizing σ with
  | nil => rfl
  | cons i rest ih => exact ih (execRow P σ n gs i)

theorem execRows_xs (P : FPrims) (n gs : Nat) (order : List Nat) (σ : KState) :
    (execRows P σ n gs order).xs = σ.xs := by
  induction order generalizing σ with
  | nil => rfl
  | cons i rest ih => exact ih (execRow P σ n gs i)

theorem execRows_wq (P : FPrims) (n gs : Nat) (order : List Nat) (σ : KState) :
    (execRows P σ n gs order).wq = σ.wq := by
  induction order generalizing σ with
  | nil => rfl
  | cons i rest ih => exact ih (execRow P σ n gs i)

theorem execRows_ws (P : FPrims) (n gs : Nat) (order : List Nat) (σ : KState) :
    (execRows P σ n gs order).ws = σ.ws := by
  induction order generalizing σ with
  | nil => rfl
  | cons i rest ih => exact ih (execRow P σ n gs i)

theorem rowVal_execRow (P : FPrims) (σ : KState) (n gs a i : Nat) :
    rowVal P (execRow P σ n gs a) n gs i = rowVal P σ n gs i := rfl

theorem execRow_xout (P : FPrims) (σ : KState) (n gs a i : Nat) :
    (execRow P σ n gs a).xout i =
      if i = a then rowVal P σ n gs a else σ.xout i := rfl

theorem execRows_xout (P : FPrims) (n gs : Nat) (order : List Nat)
    (σ : KState) (i : Nat) :
    (execRows P σ n gs order).xout i =
      if i ∈ order then rowVal P σ n gs i else σ.xout i := by
  induction order generalizing σ with
  | nil => simp [execRows]
  | cons a rest ih =>
    show (execRows P (execRow P σ n gs a) n gs rest).xout i = _
    rw [ih, rowVal_execRow, execRow_xout]
    by_cases hmem : i ∈ rest
    · simp [hmem]
    · by_cases heq : i = a
      · subst heq; simp [hmem]
      · simp [hmem, heq]

theorem sub64_eq_sub (n gs : Nat) (hle : gs ≤ n) (hn : n < 2 ^ 64) :
    sub64 n gs = n - gs := by
  unfold sub64
  omega

theorem numGroups_eq (n gs : Nat) (h1 : 1 ≤ gs) (hle : gs ≤ n)
    (hn : n < 2 ^ 64) : numGroups n gs = n / gs := by
  unfold numGroups
  rw [sub64_eq_sub n gs hle hn]
  have h2 : n - gs + gs = n := by omega
  calc (n - gs) / gs + 1 = (n - gs + gs) / gs := (Nat.add_div_right _ h1).symm
  _ = n / gs := by rw [h2]

theorem wrap32_eq (x : Int) (h1 : -(2 ^ 31) ≤ x) (h2 : x < 2 ^ 31) :
    wrap32 x = x := by
  unfold wrap32
  rw [Int.emod_eq_of_lt (by linarith) (by linarith)]
  ring

theorem int8_mul_bounds (x w : Int) (hx1 : -127 ≤ x) (hx2 : x ≤ 127)
    (hw1 : -127 ≤ w) (hw2 : w ≤ 127) : -16129 ≤ x * w ∧ x * w ≤ 16129 := by
  constructor <;>
    nlinarith [mul_nonneg (by linarith : (0:Int) ≤ 127 - x)
        (by linarith : (0:Int) ≤ 127 - w),
      mul_nonneg (by linarith : (0:Int) ≤ 127 + x)
        (by linarith : (0:Int) ≤ 127 + w),
      mul_nonneg (by linarith : (0:Int) ≤ 127 - x)
        (by linarith : (0:Int) ≤ 127 + w),
      mul_nonneg (by linarith : (0:Int) ≤ 127 + x)
        (by linarith : (0:Int) ≤ 127 - w)]

theorem groupIval_exact_aux (xq wq : Nat → Int) (inn j gs : Nat)
    (hx : ∀ k, -127 ≤ xq k ∧ xq k ≤ 127)
    (hw : ∀ k, -127 ≤ wq k ∧ wq k ≤ 127)
    (hovf : gs * 127 * 127 < 2 ^ 31) :
    ∀ m, m ≤ gs →
      (List.range m).foldl
          (fun ival k => wrap32 (ival + wrap32 (xq (j + k) * wq (inn + (j + k))))) 0
        = ((List.range m).map (fun k => xq (j + k) * wq (inn + (j + k)))).sum
      ∧ -((m : Int) * 16129) ≤
          ((List.range m).map (fun k => xq (j + k) * wq (inn + (j + k)))).sum
      ∧ ((List.range m).map (fun k => xq (j + k) * wq (inn + (j + k)))).sum
          ≤ (m : Int) * 16129 := by
  intro m
  induction m with
  | zero => intro _; simp
  | succ m2 ih =>
    intro hm
    obtain ⟨ihf, ihl, ihr⟩ := ih (by omega)
    obtain ⟨ht1, ht2⟩ := int8_mul_bounds (xq (j + m2)) (wq (inn + (j + m2)))
      (hx _).1 (hx _).2 (hw _).1 (hw _).2
    have hmgs : (m2 : Int) + 1 ≤ (gs : Int) := by exact_mod_cast hm
    have hbig : (gs : Int) * 16129 < 2 ^ 31 := by
      have : (gs * 127 * 127 : Int) < 2 ^ 31 := by exact_mod_cast hovf
      linarith [this, mul_assoc (gs : Int) 127 127]
    have hcast : ((m2 : Int) + 1) * 16129 ≤ (gs : Int) * 16129 := by nlinarith
    rw [List.range_succ, List.foldl_append, List.map_append, List.sum_append]
    simp only [List.foldl_cons, List.foldl_nil, List.map_cons, List.map_nil,
      List.sum_cons, List.sum_nil, add_zero]
    rw [ihf, wrap32_eq (xq (j + m2) * wq (inn + (j + m2))) (by linarith) (by linarith),
      wrap32_eq _ (by push_cast; nlinarith) (by push_cast; nlinarith)]
    refine ⟨rfl, ?_, ?_⟩ <;> push_cast <;> nlinarith

theorem groupIval_exact (xq wq : Nat → Int) (inn j gs : Nat)
    (hx : ∀ k, -127 ≤ xq k ∧ xq k ≤ 127)
    (hw : ∀ k, -127 ≤ wq k ∧ wq k ≤ 127)
    (hovf : gs * 127 * 127 < 2 ^ 31) :
    groupIval xq wq inn j gs = exactIval xq wq inn j gs :=
  (groupIval_exact_aux xq wq inn j gs hx hw hovf gs (le_refl gs)).1

theorem rowSum_eq_specRow (P : FPrims) (xq : Nat → Int) (xs : Nat → Nat)
    (wq : Nat → Int) (ws : Nat → Nat) (n gs inn : Nat)
    (h1 : 1 ≤ gs) (hle : gs ≤ n) (hn : n < 2 ^ 64)
    (hx : ∀ k, -127 ≤ xq k ∧ xq k ≤ 127)
    (hw : ∀ k, -127 ≤ wq k ∧ wq k ≤ 127)
    (hovf : gs * 127 * 127 < 2 ^ 31) :
    rowSum P xq xs wq ws n gs inn = specRow P xq xs wq ws n gs inn := by
  unfold rowSum specRow
  rw [numGroups_eq n gs h1 hle hn, List.foldl_map]
  apply List.foldl_ext
  intro sum t _
  simp only []
  rw [groupIval_exact xq wq inn (t * gs) gs hx hw hovf]

theorem groupIval_congr (xq xq2 wq wq2 : Nat → Int) (inn j gs : Nat)
    (hx : ∀ k, k < gs → xq (j + k) = xq2 (j + k))
    (hw : ∀ k, k < gs → wq (inn + (j + k)) = wq2 (inn + (j + k))) :
    groupIval xq wq inn j gs = groupIval xq2 wq2 inn j gs := by
  unfold groupIval
  apply List.foldl_ext
  intro a k hk
  rw [hx k (List.mem_range.mp hk), hw k (List.mem_range.mp hk)]

theorem rowSum_congr (P : FPrims) (xq xq2 : Nat → Int) (xs : Nat → Nat)
    (wq wq2 : Nat → Int) (ws : Nat → Nat) (n gs inn : Nat)
    (h1 : 1 ≤ gs) (hle : gs ≤ n) (hn : n < 2 ^ 64)
    (hx : ∀ k, k < n / gs * gs → xq k = xq2 k)
    (hw : ∀ off, off < n / gs * gs → wq (inn + off) = wq2 (inn + off)) :
    rowSum P xq xs wq ws n gs inn = rowSum P xq2 xs wq2 ws n gs inn := by
  unfold rowSum
  apply List.foldl_ext
  intro sum t ht
  have htlt : t < n / gs := by
    have := List.mem_range.mp ht
    rwa [numGroups_eq n gs h1 hle hn] at this
  have hidx : ∀ k, k < gs → t * gs + k < n / gs * gs := by
    intro k hk
    have h3 : t + 1 ≤ n / gs := htlt
    calc t * gs + k < t * gs + gs := by omega
    _ = (t + 1) * gs := by ring
    _ ≤ n / gs * gs := Nat.mul_le_mul_right gs h3
  simp only []
  rw [groupIval_congr xq xq2 wq wq2 inn (t * gs) gs
    (fun k hk => hx _ (hidx k hk)) (fun k hk => hw _ (hidx k hk))]

theorem countP_beq_range (d i : Nat) (h : i < d) :
    (List.range d).countP (fun j => j == i) = 1 := by
  induction d with
  | zero => omega
  | succ d2 ih =>
    rw [List.range_succ, List.countP_append]
    rcases Nat.lt_succ_iff_lt_or_eq.mp h with h2 | h2
    · have hne : (d2 == i) = false := beq_eq_false_iff_ne.mpr (by omega)
      rw [ih h2]
      simp [List.countP_cons, hne]
    · subst h2
      have hz : (List.range i).countP (fun j => j == i) = 0 := by
        rw [List.countP_eq_zero]
        intro a ha
        have := List.mem_range.mp ha
        simp [beq_eq_false_iff_ne.mpr (show a ≠ i by omega)]
      rw [hz]
      simp [List.countP_cons]

theorem groupIval_zero (xq wq : Nat → Int) (inn j gs : Nat)
    (hx : ∀ k, xq k = 0) : groupIval xq wq inn j gs = 0 := by
  unfold groupIval
  have step0 : ∀ k, wrap32 (0 + wrap32 (xq (j + k) * wq (inn + (j + k)))) = 0 := by
    intro k
    rw [hx (j + k), zero_mul]
    norm_num [wrap32]
  generalize List.range gs = l
  induction l with
  | nil => rfl
  | cons a t ih => rw [List.foldl_cons, step0 a]; exact ih

theorem f32_fma_zero_zero (b : Nat) (hb : f32Exp b ≠ 255) :
    f32_fma 0 b 0 = 0 := by
  have hnan : f32IsNaN b = false := by
    unfold f32IsNaN
    rw [show (f32Exp b == 255) = false from beq_eq_false_iff_ne.mpr hb]
    rfl
  have hinf : f32IsInf b = false := by
    unfold f32IsInf
    rw [show (f32Exp b == 255) = false from beq_eq_false_iff_ne.mpr hb]
    rfl
  have hsign : f32Sign b < 2 := Nat.mod_lt _ (by norm_num)
  unfold f32_fma
  rw [show f32IsNaN 0 = false from rfl, hnan, hinf]
  rw [show f32IsInf 0 = false from rfl, show f32IsZero 0 = true from rfl]
  simp only [Bool.false_or, Bool.or_false, Bool.false_and, Bool.and_true,
    Bool.and_false, Bool.or_self, if_neg, Bool.false_eq_true,
    not_false_eq_true, ite_false]
  have hsp : (f32Sign 0 + f32Sign b) % 2 = f32Sign b := by
    rw [show f32Sign 0 = 0 from rfl, Nat.zero_add, Nat.mod_eq_of_lt hsign]
  rw [hsp]
  have hM0 : f32SigM 0 = 0 := rfl
  simp only [hM0, Nat.zero_mul, Nat.mul_zero, Nat.cast_zero, zero_mul,
    mul_zero, add_zero, if_pos rfl]
  rw [show f32Sign 0 = 0 from rfl]
  have hcases : f32Sign b = 0 ∨ f32Sign b = 1 := by omega
  rcases hcases with h0 | h1
  · rw [h0]; simp
  · rw [h1]; simp

theorem rowSum_zero (xq : Nat → Int) (xs : Nat → Nat) (wq : Nat → Int)
    (ws : Nat → Nat) (n gs inn : Nat) (hx : ∀ k, xq k = 0)
    (hsc : ∀ p q, f32Exp (f32_mul (xs p) (ws q)) ≠ 255) :
    rowSum guestPrims xq xs wq ws n gs inn = 0 := by
  unfold rowSum
  have step0 : ∀ t : Nat,
      guestPrims.ffma (guestPrims.cvt (groupIval xq wq inn (t * gs) gs))
        (guestPrims.fmul (xs (t * gs / gs)) (ws ((inn + t * gs) / gs))) 0 = 0 := by
    intro t
    rw [groupIval_zero xq wq inn (t * gs) gs hx]
    show f32_fma (i32_to_f32 0) (f32_mul (xs _) (ws _)) 0 = 0
    rw [show i32_to_f32 0 = 0 from rfl]
    exact f32_fma_zero_zero _ (hsc _ _)
  generalize List.range (numGroups n gs) = l
  induction l with
  | nil => rfl
  | cons a t ih => rw [List.foldl_cons]; simp only []; rw [step0 a]; exact ih

/-! ## Claims -/

/-- C1: for every invocation of `kernel_entry` with `gs ≥ 1`, `gs` dividing
`n`, `n ≥ gs`, `d ≥ 1` (via `i < d`), buffers of the stated lengths with
int8 entries in [-127, 127] whose group accumulation stays in signed 32-bit
range (spec §3 and §7 preconditions), each output entry `xout[i]` equals the
left fold, over groups taken in increasing offset order
`j = 0, gs, ..., n-gs`, of
`sum = fma(i32_to_f32(ival_j), f32_mul(xs[j/gs], ws[(i*n+j)/gs]), sum)`
starting from +0.0, where `ival_j` is the exact integer dot product of the
group (`specRow` is literally that fold, with the scale multiply inside the
FMA argument, i.e. performed before it, and no reassociation). -/
theorem c1_row_fold (σ : KState) (n d gs : Nat)
    (hgs : 1 ≤ gs) (hdvd : gs ∣ n) (hle : gs ≤ n) (hn : n < 2 ^ 64)
    (hx : ∀ k, -127 ≤ σ.xq k ∧ σ.xq k ≤ 127)
    (hw : ∀ k, -127 ≤ σ.wq k ∧ σ.wq k ≤ 127)
    (hovf : gs * 127 * 127 < 2 ^ 31) (i : Nat) (hi : i < d) :
    (kernel_entry guestPrims σ n d gs).xout i
      = specRow guestPrims σ.xq σ.xs σ.wq σ.ws n gs (i * n) := by
  unfold kernel_entry
  rw [execRows_xout]
  rw [if_pos (List.mem_range.mpr hi)]
  exact rowSum_eq_specRow guestPrims σ.xq σ.xs σ.wq σ.ws n gs (i * n)
    hgs hle hn hx hw hovf

/-- C1 witness: concrete instance with `n = 2, d = 1, gs = 2` and all-ones
inputs. -/
theorem c1_row_fold_witness :
    (kernel_entry guestPrims exState 2 1 2).xout 0
      = specRow guestPrims exState.xq exState.xs exState.wq exState.ws 2 2 0 :=
  c1_row_fold exState 2 1 2 (by decide) (by decide) (by decide) (by decide)
    (fun k => by constructor <;> norm_num [exState])
    (fun k => by constructor <;> norm_num [exState])
    (by decide) 0 (by decide)

/-- C2: the guest realization (RISC-V `fmul.s` / `fmadd.s` / `fcvt.s.w` with
`rne`) and the host realization (`cartesi::i_sfloat32` under `FRM_RNE`,
modelled from spec §4.1 as the same bit-accurate IEEE-754 semantics) agree
pointwise on each primitive, and any two pointwise-agreeing realizations of
the primitives produce bit-identical `xout` buffers for the whole kernel on
every input. -/
theorem c2_realizations_bit_identical :
    (∀ a b, guestPrims.fmul a b = hostPrims.fmul a b)
  ∧ (∀ a b c, guestPrims.ffma a b c = hostPrims.ffma a b c)
  ∧ (∀ x, guestPrims.cvt x = hostPrims.cvt x)
  ∧ (∀ G H : FPrims, (∀ a b, G.fmul a b = H.fmul a b) →
      (∀ a b c, G.ffma a b c = H.ffma a b c) → (∀ x, G.cvt x = H.cvt x) →
      ∀ (σ : KState) (n d gs : Nat),
        (kernel_entry G σ n d gs).xout = (kernel_entry H σ n d gs).xout) := by
  refine ⟨fun a b => rfl, fun a b c => rfl, fun x => rfl, ?_⟩
  intro G H hm hf hc σ n d gs
  have hGH : G = H := by
    obtain ⟨Gm, Gf, Gc⟩ := G
    obtain ⟨Hm, Hf, Hc⟩ := H
    have e1 : Gm = Hm := funext fun a => funext fun b => hm a b
    have e2 : Gf = Hf := funext fun a => funext fun b => funext fun c => hf a b c
    have e3 : Gc = Hc := funext fun x => hc x
    rw [e1, e2, e3]
  rw [hGH]

/-- C2 witness: the kernel-level equality instantiated at the guest and host
realizations on a concrete invocation. -/
theorem c2_realizations_bit_identical_witness :
    (kernel_entry guestPrims exState 2 1 2).xout
      = (kernel_entry hostPrims exState 2 1 2).xout :=
  c2_realizations_bit_identical.2.2.2 guestPrims hostPrims
    (fun a b => rfl) (fun a b c => rfl) (fun x => rfl) exState 2 1 2

/-- C3: on the concrete invocation `n=4, d=1, gs=2`, `xq=[1,2,3,4]`,
`wq=[1,1,1,1]`, `xs=[1.0,1.0]`, `ws=[1.0,1.0]`, the kernel computes group
integer sums 3 and 7, the first FMA gives 3.0, the second gives 10.0, and
`xout[0]` is exactly the bit pattern of 10.0f (0x41200000). -/
theorem c3_concrete_scenario :
    groupIval c3State.xq c3State.wq 0 0 2 = 3
  ∧ groupIval c3State.xq c3State.wq 0 2 2 = 7
  ∧ f32_fma (i32_to_f32 3) (f32_mul oneF32 oneF32) 0 = 0x40400000
  ∧ f32_fma (i32_to_f32 7) (f32_mul oneF32 oneF32) 0x40400000 = 0x41200000
  ∧ (kernel_entry guestPrims c3State 4 1 2).xout 0 = 0x41200000 := by
  refine ⟨by decide, by decide, by decide, by decide, by decide⟩

/-- C4 counterexample: the claim fails as stated.  `nanScaleState` is the
invocation `n=1, d=1, gs=1` whose `xq` buffer is all zeros (`xq = [0]`) with
a NaN input scale `xs = [NaN]` and `ws = [1.0]`: the kernel computes
`fma(+0.0, mul(NaN, 1.0), +0.0) = NaN`, so `xout[0]` is the canonical NaN,
not zero. -/
theorem c4_zero_input_counterexample :
    (kernel_entry guestPrims nanScaleState 1 1 1).xout 0 = canonNaN
  ∧ canonNaN ≠ 0 := by
  refine ⟨by decide, by decide⟩

/-- C4 (amended): if every element of `xq` is zero then every entry of
`xout` is (+0.0), for all values of `wq` and for all scales `xs`, `ws` whose
per-group products `f32_mul(xs[g], ws[g'])` are finite (not NaN and not
infinite); with a NaN or infinite scale product the entry is NaN instead. -/
theorem c4_zero_input_zero_output (σ : KState) (n d gs : Nat)
    (hx : ∀ k, σ.xq k = 0)
    (hsc : ∀ p q, f32Exp (f32_mul (σ.xs p) (σ.ws q)) ≠ 255)
    (i : Nat) (hi : i < d) :
    (kernel_entry guestPrims σ n d gs).xout i = 0 := by
  unfold kernel_entry
  rw [execRows_xout, if_pos (List.mem_range.mpr hi)]
  exact rowSum_zero σ.xq σ.xs σ.wq σ.ws n gs (i * n) hx hsc

/-- C4 witness: all-zero `xq` with 1.0 scales on `n=2, d=1, gs=2` yields
`xout[0] = +0.0`. -/
theorem c4_zero_input_zero_output_witness :
    (kernel_entry guestPrims
      ⟨fun _ => 0, fun _ => oneF32, fun _ => 1, fun _ => oneF32, fun _ => 0⟩
      2 1 2).xout 0 = 0 :=
  c4_zero_input_zero_output
    ⟨fun _ => 0, fun _ => oneF32, fun _ => 1, fun _ => oneF32, fun _ => 0⟩
    2 1 2 (fun k => rfl)
    (fun p q => by show f32Exp (f32_mul oneF32 oneF32) ≠ 255; decide)
    0 (by decide)

/-- C5: with `gs ≥ 1`, `gs ≤ n` and `gs` not dividing `n`, the kernel
processes exactly the `⌊n/gs⌋` whole groups of each row: the outputs do not
depend on the values of `xq` and `wq` at within-row offsets in
`[⌊n/gs⌋*gs, n)` (or beyond), and no error is signalled (the model is a
total function). -/
theorem c5_partial_group_dropped (P : FPrims) (σ : KState)
    (xq2 : Nat → Int) (wq2 : Nat → Int) (n d gs : Nat)
    (hgs : 1 ≤ gs) (hle : gs ≤ n) (hndvd : ¬ gs ∣ n) (hn : n < 2 ^ 64)
    (hx : ∀ k, k < n / gs * gs → σ.xq k = xq2 k)
    (hw : ∀ i off, i < d → off < n / gs * gs →
      σ.wq (i * n + off) = wq2 (i * n + off)) :
    numGroups n gs = n / gs
  ∧ ∀ i, i < d →
      (kernel_entry P σ n d gs).xout i
        = (kernel_entry P { σ with xq := xq2, wq := wq2 } n d gs).xout i := by
  refine ⟨numGroups_eq n gs hgs hle hn, ?_⟩
  intro i hi
  unfold kernel_entry
  rw [execRows_xout, execRows_xout, if_pos (List.mem_range.mpr hi),
    if_pos (List.mem_range.mpr hi)]
  exact rowSum_congr P σ.xq xq2 σ.xs σ.wq wq2 σ.ws n gs (i * n) hgs hle hn
    hx (fun off hoff => hw i off hi hoff)

/-- C5 witness: `n = 3, gs = 2, d = 1`; changing `xq[2]` and `wq[2]` (the
dropped trailing partial group) from 1 to 5 leaves `xout[0]` unchanged. -/
theorem c5_partial_group_dropped_witness :
    (kernel_entry guestPrims exState 3 1 2).xout 0
      = (kernel_entry guestPrims
          { exState with xq := fun k => if k < 2 then 1 else 5,
                         wq := fun k => if k < 2 then 1 else 5 } 3 1 2).xout 0 :=
  (c5_partial_group_dropped guestPrims exState
    (fun k => if k < 2 then 1 else 5) (fun k => if k < 2 then 1 else 5)
    3 1 2 (by decide) (by decide) (by decide) (by decide)
    (fun k hk => by simp [exState, show k < 2 from hk])
    (fun i off hi hoff => by
      have hoff2 : i * 3 + off < 2 := by omega
      simp [exState, hoff2])).2
    0 (by decide)

/-- C6: when `gs > n` (allowed by the stated invariants when `n = 0`), the
unsigned loop bound `n - gs` wraps to `2^64 - (gs - n)`, the group loop is
entered at `j = 0` (`numGroups ≠ 0`) instead of running zero times, the
first group already reads `xq` at index `n`, which is past the end of the
`n`-element buffer (and `n / gs = 0`, so even the single `xs[0]` read is out
of bounds); by contrast, whenever `gs ≤ n` every `xq` read index is in
bounds, so staying in bounds requires the stronger precondition `gs ≤ n`. -/
theorem c6_loop_bound_wraparound (n gs : Nat)
    (hgs : 1 ≤ gs) (hlt : n < gs) (h64 : gs < 2 ^ 64) :
    sub64 n gs = 2 ^ 64 - (gs - n)
  ∧ numGroups n gs ≠ 0
  ∧ n ∈ xqReadIdx n gs
  ∧ n / gs = 0
  ∧ (∀ n2 gs2, 1 ≤ gs2 → gs2 ≤ n2 → n2 < 2 ^ 64 →
      ∀ m, m ∈ xqReadIdx n2 gs2 → m < n2) := by
  refine ⟨?_, ?_, ?_, ?_, ?_⟩
  · show (n + 2 ^ 64 - gs % 2 ^ 64) % 2 ^ 64 = 2 ^ 64 - (gs - n)
    omega
  · exact Nat.succ_ne_zero (sub64 n gs / gs)
  · unfold xqReadIdx
    rw [List.mem_flatMap]
    refine ⟨0, List.mem_range.mpr (Nat.succ_pos (sub64 n gs / gs)), ?_⟩
    rw [List.mem_map]
    exact ⟨n, List.mem_range.mpr hlt, by omega⟩
  · exact Nat.div_eq_of_lt hlt
  · intro n2 gs2 hgs2 hle2 hn2 m hm
    unfold xqReadIdx at hm
    rw [List.mem_flatMap] at hm
    obtain ⟨t, ht, hmap⟩ := hm
    rw [List.mem_map] at hmap
    obtain ⟨k, hk, hmk⟩ := hmap
    have htlt : t < n2 / gs2 := by
      have := List.mem_range.mp ht
      rwa [numGroups_eq n2 gs2 hgs2 hle2 hn2] at this
    have hklt : k < gs2 := List.mem_range.mp hk
    have hstep : (t + 1) * gs2 ≤ n2 / gs2 * gs2 :=
      Nat.mul_le_mul_right gs2 htlt
    have hfloor : n2 / gs2 * gs2 ≤ n2 := Nat.div_mul_le_self n2 gs2
    have hexp : (t + 1) * gs2 = t * gs2 + gs2 := by ring
    omega

/-- C6 witness: `n = 0, gs = 1` (every `gs` divides 0, so the stated
invariants allow it): the loop bound wraps to `2^64 - 1` and index 0 is read
from the empty `xq` buffer. -/
theorem c6_loop_bound_wraparound_witness :
    sub64 0 1 = 2 ^ 64 - (1 - 0) ∧ 0 ∈ xqReadIdx 0 1 :=
  ⟨(c6_loop_bound_wraparound 0 1 (by decide) (by decide) (by decide)).1,
   (c6_loop_bound_wraparound 0 1 (by decide) (by decide) (by decide)).2.2.1⟩

/-- C7: under the precondition that all elements of `xq` and `wq` lie in
[-127, 127] and `gs * 127 * 127 < 2^31`, the signed 32-bit wrapping
accumulation `ival` of each group equals the exact mathematical integer dot
product of that group (no wraparound, no rounding), so the value passed to
`i32_to_f32` is exact. -/
theorem c7_group_accumulation_exact (xq wq : Nat → Int) (inn j gs : Nat)
    (hx : ∀ k, -127 ≤ xq k ∧ xq k ≤ 127)
    (hw : ∀ k, -127 ≤ wq k ∧ wq k ≤ 127)
    (hovf : gs * 127 * 127 < 2 ^ 31) :
    groupIval xq wq inn j gs = exactIval xq wq inn j gs :=
  groupIval_exact xq wq inn j gs hx hw hovf

/-- C7 witness: concrete group of size 2 with all-ones inputs. -/
theorem c7_group_accumulation_exact_witness :
    groupIval (fun _ => 1) (fun _ => 1) 0 0 2
      = exactIval (fun _ => 1) (fun _ => 1) 0 0 2 :=
  c7_group_accumulation_exact (fun _ => 1) (fun _ => 1) 0 0 2
    (fun k => by norm_num) (fun k => by norm_num) (by decide)

/-- C8: `kernel_entry` writes only to the `xout` buffer: `xq`, `xs`, `wq`,
`ws` are unchanged after the call, entries of `xout` outside `[0, d)` are
unchanged, and every entry `xout[i]` with `i < d` is overwritten (with the
row value) by exactly one write event of the trace. -/
theorem c8_frame_writes_only_xout (P : FPrims) (σ : KState) (n d gs : Nat) :
    (kernel_entry P σ n d gs).xq = σ.xq
  ∧ (kernel_entry P σ n d gs).xs = σ.xs
  ∧ (kernel_entry P σ n d gs).wq = σ.wq
  ∧ (kernel_entry P σ n d gs).ws = σ.ws
  ∧ (∀ i, d ≤ i → (kernel_entry P σ n d gs).xout i = σ.xout i)
  ∧ (∀ i, i < d → (kernel_entry P σ n d gs).xout i = rowVal P σ n gs i)
  ∧ (∀ i, i < d →
      (kernelTrace P σ n gs (List.range d)).countP (isWriteToXout i) = 1) := by
  refine ⟨execRows_xq P n gs (List.range d) σ, execRows_xs P n gs (List.range d) σ,
    execRows_wq P n gs (List.range d) σ, execRows_ws P n gs (List.range d) σ,
    ?_, ?_, ?_⟩
  · intro i hi
    unfold kernel_entry
    rw [execRows_xout, if_neg (by simp [List.mem_range]; omega)]
  · intro i hi
    unfold kernel_entry
    rw [execRows_xout, if_pos (List.mem_range.mpr hi)]
  · intro i hi
    unfold kernelTrace
    rw [List.countP_append, List.countP_map]
    have hmapped : ((isWriteToXout i) ∘
        fun i2 => Event.writeXout i2 (rowVal P σ n gs i2)) = fun j => j == i := by
      funext j
      rfl
    rw [hmapped, countP_beq_range d i hi]
    rfl

/-- C8 witness: concrete instance on `n = 2, d = 1, gs = 2`. -/
theorem c8_frame_writes_only_xout_witness :
    (kernel_entry guestPrims exState 2 1 2).xout 1 = exState.xout 1
  ∧ (kernelTrace guestPrims exState 2 2 (List.range 1)).countP
      (isWriteToXout 0) = 1 :=
  ⟨(c8_frame_writes_only_xout guestPrims exState 2 1 2).2.2.2.2.1 1 (by decide),
   (c8_frame_writes_only_xout guestPrims exState 2 1 2).2.2.2.2.2.2 0 (by decide)⟩

/-- C9: `kernel_entry` is deterministic and independent of the row
schedule: executing the rows in any order that is a permutation of
`0, ..., d-1` produces the same `xout` buffer, equal to that of the
canonical sequential schedule. -/
theorem c9_schedule_independent (P : FPrims) (σ : KState) (n d gs : Nat)
    (order1 order2 : List Nat)
    (h1 : order1.Perm (List.range d)) (h2 : order2.Perm (List.range d)) :
    (execRows P σ n gs order1).xout = (execRows P σ n gs order2).xout
  ∧ (execRows P σ n gs order1).xout = (kernel_entry P σ n d gs).xout := by
  have key : ∀ order : List Nat, order.Perm (List.range d) →
      (execRows P σ n gs order).xout = (kernel_entry P σ n d gs).xout := by
    intro order hp
    funext i
    unfold kernel_entry
    rw [execRows_xout, execRows_xout]
    by_cases hmem : i ∈ List.range d
    · rw [if_pos (hp.mem_iff.mpr hmem), if_pos hmem]
    · rw [if_neg (fun hc => hmem (hp.mem_iff.mp hc)), if_neg hmem]
  exact ⟨(key order1 h1).trans (key order2 h2).symm, key order1 h1⟩

/-- C9 witness: schedules `[1, 0]` and `[0, 1]` of a 2-row kernel agree. -/
theorem c9_schedule_independent_witness :
    (execRows guestPrims exState 2 2 [1, 0]).xout
      = (execRows guestPrims exState 2 2 [0, 1]).xout :=
  (c9_schedule_independent guestPrims exState 2 2 2 [1, 0] [0, 1]
    (by decide) (by decide)).1

/-- C10: in every execution, under any schedule of the `d` rows, the
completion signal occurs exactly once in the trace, as its last event, after
all `d` entries of `xout` have been written (the guest realization of the
signal being the single store of sentinel 1 to the fixed address
0x40008000, the host realization a no-op before normal return). -/
theorem c10_halt_once_after_writes (P : FPrims) (σ : KState) (n d gs : Nat)
    (order : List Nat) (hp : order.Perm (List.range d)) :
    (kernelTrace P σ n gs order).countP isHaltEvent = 1
  ∧ (∃ L, kernelTrace P σ n gs order = L ++ [Event.haltSignal]
      ∧ (∀ e, e ∈ L → isHaltEvent e = false)
      ∧ (∀ i, i < d → Event.writeXout i (rowVal P σ n gs i) ∈ L))
  ∧ guestHaltStore = (0x40008000, 1) := by
  refine ⟨?_, ⟨order.map (fun i => Event.writeXout i (rowVal P σ n gs i)),
    rfl, ?_, ?_⟩, rfl⟩
  · unfold kernelTrace
    rw [List.countP_append, List.countP_map]
    have hmapped : (isHaltEvent ∘
        fun i => Event.writeXout i (rowVal P σ n gs i)) = fun _ => false := by
      funext j
      rfl
    rw [hmapped]
    simp [List.countP_cons, List.countP_nil, isHaltEvent]
  · intro e he
    rw [List.mem_map] at he
    obtain ⟨a, _, ha⟩ := he
    rw [← ha]
    rfl
  · intro i hi
    rw [List.mem_map]
    exact ⟨i, hp.mem_iff.mpr (List.mem_range.mpr hi), rfl⟩

/-- C10 witness: the canonical schedule of a 1-row kernel signals halt
exactly once. -/
theorem c10_halt_once_after_writes_witness :
    (kernelTrace guestPrims exState 2 2 (List.range 1)).countP isHaltEvent = 1 :=
  (c10_halt_once_after_writes guestPrims exState 2 1 2 (List.range 1)
    (List.Perm.refl _)).1

end MatmulKernel
